import Mathlib

/-!
Verification of the randomized selection and partition engine in `src/sort.c`.

The C program is embedded shallowly:

* `Manage` mirrors `struct Manage` (a label `pseudo` and an origin index `id`).
* The process-wide random generator `rand()` is modelled as a stream
  `rand : Nat → Nat` read at a cursor position `pos`; each call reads
  `rand pos` and advances the cursor.  The C code always reduces a draw
  modulo the current range, which the embedding reproduces literally.
* `ft_swap` swaps two in-bounds positions of a list (the C function swaps
  two pointed elements; callers only pass valid pointers).
* `shuffle` is the backward Fisher-Yates loop of `shuffle` in the source:
  for index `i` from `len - 1` down to `1` it draws `rand pos % (i + 1)`
  and swaps positions `i` and the draw.
* `create_distinct_random_list` and `split_into_groups` mirror the two
  allocating functions; `malloc` success is an oracle `Bool` per
  allocation and failure paths return `none`, as the C code returns
  `NULL` / leaves the out-parameters untouched.
* A small flat-memory model (`Mem`) embeds `split_into_groups` once more
  at the granularity of heap cells, to state the frame/no-sharing claims.
-/

namespace SortC

/-- Mirrors `#define RANGE 6` in the source. -/
def RANGE : Nat := 6

/-- Mirrors `struct Manage`: a borrowed label and the origin index assigned
at universe construction. -/
structure Manage where
  pseudo : String
  id : Nat
deriving DecidableEq

/-- Embedding of `ft_swap` applied to positions `i` and `j` of a list: the C
function exchanges the two pointed structs; callers always pass in-bounds
pointers, and out-of-bounds indices leave the list unchanged here. -/
def ft_swap {α : Type _} (l : List α) (i j : Nat) : List α :=
  if h : i < l.length ∧ j < l.length then
    (l.set i (l.get ⟨j, h.2⟩)).set j (l.get ⟨i, h.1⟩)
  else l

/-- The loop of `shuffle`: the third argument is the current index `i`
(the C `ptr - array`); while `i ≥ 1` it draws `rand pos % (i + 1)`,
swaps, advances the random cursor and decrements `i`.  Returns the list
together with the final cursor position. -/
def shuffleAux {α : Type _} (rand : Nat → Nat) : List α → Nat → Nat → List α × Nat
  | l, pos, 0 => (l, pos)
  | l, pos, i + 1 => shuffleAux rand (ft_swap l (i + 1) (rand pos % (i + 2))) (pos + 1) i

/-- Embedding of `shuffle(array, len)`: starts at index `len - 1` (the C
`end - 1`) and runs the loop down to index `1`. -/
def shuffle {α : Type _} (rand : Nat → Nat) (l : List α) (len : Nat) (pos : Nat) :
    List α × Nat :=
  shuffleAux rand l pos (len - 1)

/-- The universe-building loop of `create_distinct_random_list`: it always
fills `RANGE` entries, entry `i` taking `names[i]` as label and `i` as origin
index, regardless of how many labels the caller actually supplied (the C code
reads `names[0] .. names[RANGE-1]` unconditionally; an out-of-range read is
modelled by the default label `""`). -/
def build_universe (names : List String) : List Manage :=
  (List.range RANGE).map (fun i => { pseudo := names.getD i "", id := i })

/-- Embedding of `create_distinct_random_list(len, names)`.  `rand`/`pos` is
the random stream, and `allocNew`/`allocResult` are oracles for the success of
the two `malloc` calls.  The C function rejects `len > RANGE`, returns `NULL`
when either allocation fails, and otherwise builds the `RANGE`-entry universe,
shuffles it over its full length, and copies out the first `len` entries. -/
def create_distinct_random_list (rand : Nat → Nat) (pos : Nat) (len : Nat)
    (names : List String) (allocNew allocResult : Bool) : Option (List Manage) :=
  if RANGE < len then none
  else if !allocResult || !allocNew then none
  else some ((shuffle rand (build_universe names) RANGE pos).1.take len)

/-- The copy loop of `split_into_groups`: walks the list with index `i`,
appending to the first accumulator while `i < half` and to the second
afterwards. -/
def splitLoop {α : Type _} (half : Nat) : List α → Nat → List α → List α → List α × List α
  | [], _, a, b => (a, b)
  | x :: rest, i, a, b =>
    if i < half then splitLoop half rest (i + 1) (a ++ [x]) b
    else splitLoop half rest (i + 1) a (b ++ [x])

/-- Embedding of `split_into_groups(lst, len, &group_a, &group_b)`: allocation
oracles `okA`/`okB` model the two `malloc` calls; on failure the function
returns before writing anything (`none`), otherwise it runs the copy loop over
the first `len` elements with `half = len / 2`. -/
def split_into_groups {α : Type _} (lst : List α) (len : Nat) (okA okB : Bool) :
    Option (List α × List α) :=
  if !okA || !okB then none
  else some (splitLoop (len / 2) (lst.take len) 0 [] [])

/-- A flat memory of `Manage` cells with a bump allocator, used to embed
`split_into_groups` at the granularity of heap cells so that the frame and
no-sharing guarantees of the C code are statable.  `heap` maps a cell address
to its contents; addresses below `nextFree` are the previously allocated
memory (the source list lives there), and `malloc n` hands out the `n`
addresses starting at `nextFree`. -/
structure Mem where
  heap : Nat → Manage
  nextFree : Nat

/-- Store `v` in the cell at address `a`. -/
def writeAt (m : Mem) (a : Nat) (v : Manage) : Mem :=
  { m with heap := fun x => if x = a then v else m.heap x }

/-- The copy loop of `split_into_groups` on `Mem`: `n` iterations remain, the
current index is `i`; iteration `i` copies the cell `lst + i` into the next
cell of group A (`baseA + i`) while `i < half`, and into the next cell of
group B (`baseB + (i - half)`) afterwards, exactly as the two walking
pointers `ptr_a`/`ptr_b` do in the source. -/
def splitCopyLoop (lst half baseA baseB : Nat) : Nat → Nat → Mem → Mem
  | 0, _, m => m
  | n + 1, i, m =>
    if i < half then
      splitCopyLoop lst half baseA baseB n (i + 1)
        (writeAt m (baseA + i) (m.heap (lst + i)))
    else
      splitCopyLoop lst half baseA baseB n (i + 1)
        (writeAt m (baseB + (i - half)) (m.heap (lst + i)))

/-- Memory-level embedding of `split_into_groups(lst, len, ...)` on the
success path: the two `malloc (len / 2)` calls hand out the fresh disjoint
regions starting at `nextFree` and `nextFree + len / 2`, then the copy loop
fills them from the source region starting at `lst`.  Returns the new memory
and the two group base addresses. -/
def split_into_groups_mem (m : Mem) (lst len : Nat) : Mem × Nat × Nat :=
  (splitCopyLoop lst (len / 2) m.nextFree (m.nextFree + len / 2) len 0
    { m with nextFree := m.nextFree + len / 2 + len / 2 },
   m.nextFree, m.nextFree + len / 2)

/-- The draw-sequence form of the Fisher-Yates loop: `fyAux l ds` performs
the same swaps as the loop of `shuffle`, but takes the already-reduced draws
as the explicit list `ds`; the draw at the head of `ds` is used at index
`ds.length` (so a full run on a list of length `L` takes `L - 1` draws, for
indices `L - 1` down to `1`). -/
def fyAux {α : Type _} : List α → List Nat → List α
  | l, [] => l
  | l, d :: ds => fyAux (ft_swap l (ds.length + 1) d) ds

/-- The draws the shuffle loop actually feeds to its swaps, starting at index
`i` with the random cursor at `pos`: draw `rand pos % (i + 1)` for index `i`,
then continue downward. -/
def drawsOf (rand : Nat → Nat) (pos : Nat) : Nat → List Nat
  | 0 => []
  | i + 1 => (rand pos % (i + 2)) :: drawsOf rand (pos + 1) i

/-- Validity of a draw sequence for the Fisher-Yates loop: the draw consumed
at index `ds.length - k` (the entry at position `k`) lies in `[0, ds.length - k]`,
i.e. each draw is at most the index it is used at. -/
def DrawsOk (ds : List Nat) : Prop :=
  ∀ k, (h : k < ds.length) → ds.get ⟨k, h⟩ ≤ ds.length - k

/-- Counting elements across a single `List.set`: position `j` loses its old
value and gains `a`. -/
theorem count_set_add {α : Type _} [DecidableEq α] (l : List α) (j : Nat)
    (hj : j < l.length) (a x : α) :
    (l.set j a).count x + [l.get ⟨j, hj⟩].count x = l.count x + [a].count x := by
  rw [List.set_eq_take_cons_drop a hj]
  conv_rhs => rw [← List.take_append_drop j l, ← List.getElem_cons_drop l j hj]
  simp only [List.count_append, List.count_cons, List.count_nil, List.get_eq_getElem]
  split_ifs <;> omega

/-- Swapping two positions permutes the list. -/
theorem ft_swap_perm {α : Type _} (l : List α) (i j : Nat) : (ft_swap l i j).Perm l := by
  classical
  rw [ft_swap]
  split
  case isFalse => exact List.Perm.refl l
  case isTrue h =>
    rcases h with ⟨hi, hj⟩
    rw [List.perm_iff_count]
    intro x
    by_cases hij : i = j
    · subst hij
      rw [List.set_set]
      have := count_set_add l i hi (l.get ⟨i, hi⟩) x
      omega
    · have h1 : (l.set i (l.get ⟨j, hj⟩)).get ⟨j, by simpa using hj⟩ = l.get ⟨j, hj⟩ := by
        simp only [List.get_eq_getElem]
        exact List.getElem_set_ne hij _
      have h2 := count_set_add (l.set i (l.get ⟨j, hj⟩)) j (by simpa using hj)
        (l.get ⟨i, hi⟩) x
      rw [h1] at h2
      have h3 := count_set_add l i hi (l.get ⟨j, hj⟩) x
      omega

/-- The shuffle loop permutes the list, for every starting index. -/
theorem shuffleAux_perm {α : Type _} (rand : Nat → Nat) (i : Nat) :
    ∀ (l : List α) (pos : Nat), (shuffleAux rand l pos i).1.Perm l := by
  induction i with
  | zero => intro l pos; exact List.Perm.refl l
  | succ i ih =>
    intro l pos
    exact (ih _ _).trans (ft_swap_perm l (i + 1) (rand pos % (i + 2)))

/-- The shuffle loop leaves the length unchanged. -/
theorem shuffleAux_length {α : Type _} (rand : Nat → Nat) (i : Nat)
    (l : List α) (pos : Nat) : (shuffleAux rand l pos i).1.length = l.length :=
  ((shuffleAux_perm rand i l pos).length_eq)

/-- C2: for every sequence and every stream of random draws, `shuffle`
terminates (it is a total function of the embedding) and returns a
permutation of the input: the same multiset of elements. -/
theorem shuffle_is_perm {α : Type _} (l : List α) (rand : Nat → Nat) (pos : Nat) :
    ((shuffle rand l l.length pos).1).Perm l :=
  shuffleAux_perm rand (l.length - 1) l pos

/-- C9: on sequences of length 0 or 1 the shuffle loop body never runs:
the sequence is returned unchanged and the random cursor does not move
(no draw is consumed). -/
theorem shuffle_short_noop {α : Type _} (l : List α) (rand : Nat → Nat) (pos : Nat)
    (h : l.length = 0 ∨ l.length = 1) :
    shuffle rand l l.length pos = (l, pos) := by
  rcases h with h | h <;> rw [shuffle, h] <;> rfl

/-- Closed instance of `shuffle_short_noop` at a concrete one-element list. -/
theorem shuffle_short_noop_witness :
    shuffle (fun _ => 3) [(7 : Nat)] 1 5 = ([7], 5) := by
  have h := shuffle_short_noop [(7 : Nat)] (fun _ => 3) 5 (by simp)
  simpa using h

/-- Characterization of the copy loop: the first `half - i` remaining elements
go to the first group, the rest to the second. -/
theorem splitLoop_eq {α : Type _} (half : Nat) :
    ∀ (l : List α) (i : Nat) (a b : List α),
      splitLoop half l i a b = (a ++ l.take (half - i), b ++ l.drop (half - i)) := by
  intro l
  induction l with
  | nil => intro i a b; simp [splitLoop]
  | cons x rest ih =>
    intro i a b
    rw [splitLoop]
    by_cases hi : i < half
    · obtain ⟨k, hk⟩ : ∃ k, half - i = k + 1 := ⟨half - i - 1, by omega⟩
      have hk' : half - (i + 1) = k := by omega
      rw [if_pos hi, ih, hk, hk', List.take_succ_cons, List.drop_succ_cons,
        List.append_assoc, List.singleton_append]
    · have h0 : half - i = 0 := by omega
      have h0' : half - (i + 1) = 0 := by omega
      rw [if_neg hi, ih, h0, h0', List.take_zero, List.drop_zero,
        List.append_assoc, List.singleton_append]
      simp

/-- C3: on a sequence of even length `2 * k`, splitting yields the first `k`
elements (in order) as group A and the last `k` (in order) as group B, and the
two groups concatenate back to the input. -/
theorem split_into_groups_halves {α : Type _} (l : List α) (k : Nat)
    (h : l.length = 2 * k) :
    split_into_groups l l.length true true = some (l.take k, l.drop k) ∧
      l.take k ++ l.drop k = l := by
  have hhalf : l.length / 2 = k := by omega
  constructor
  · rw [split_into_groups, if_neg (by simp), List.take_length, splitLoop_eq, hhalf]
    simp
  · exact List.take_append_drop k l

/-- Closed instance of `split_into_groups_halves` on a four-element list. -/
theorem split_into_groups_halves_witness :
    split_into_groups [(10 : Nat), 11, 12, 13] 4 true true = some ([10, 11], [12, 13]) :=
  (split_into_groups_halves [(10 : Nat), 11, 12, 13] 2 rfl).1

/-- C6: every failure of the two allocating operations is total: a rejected
count or any failed allocation makes `create_distinct_random_list` return
`none` (the C `NULL`), and any failed allocation makes `split_into_groups`
return `none` (the C early `return` before any element is written).  No
truncated or partially built output is ever produced. -/
theorem no_partial_on_failure :
    (∀ (rand : Nat → Nat) (pos len : Nat) (names : List String) (aN aR : Bool),
      RANGE < len ∨ aN = false ∨ aR = false →
      create_distinct_random_list rand pos len names aN aR = none) ∧
    (∀ (lst : List Manage) (len : Nat) (okA okB : Bool),
      okA = false ∨ okB = false →
      split_into_groups lst len okA okB = none) := by
  constructor
  · intro rand pos len names aN aR h
    rcases h with h | h | h
    · rw [create_distinct_random_list, if_pos h]
    · subst h; rw [create_distinct_random_list]
      split
      · rfl
      · rw [if_pos (by simp)]
    · subst h; rw [create_distinct_random_list]
      split
      · rfl
      · rw [if_pos (by simp)]
  · intro lst len okA okB h
    rcases h with h | h <;> subst h
    · rw [split_into_groups, if_pos (by simp)]
    · rw [split_into_groups, if_pos (by simp)]

/-- Closed instance of `no_partial_on_failure`: an oversized count and a
failed allocation each yield `none`. -/
theorem no_partial_on_failure_witness :
    create_distinct_random_list (fun _ => 0) 0 7 [] true true = none ∧
      split_into_groups ([] : List Manage) 0 false true = none :=
  ⟨no_partial_on_failure.1 (fun _ => 0) 0 7 [] true true (Or.inl (by decide)),
   no_partial_on_failure.2 [] 0 false true (Or.inl rfl)⟩

/-- C10: the request is validated against the constant `RANGE = 6` only, and
the universe that is built and shuffled always has exactly `RANGE` entries
with origin indices `0 .. RANGE-1` and labels read from pool positions
`0 .. RANGE-1`, regardless of the requested count (any `len ≤ RANGE` is
accepted) and of how many labels the pool really has. -/
theorem create_validates_against_RANGE (rand : Nat → Nat) (pos len : Nat)
    (names : List String) (h : len ≤ RANGE) :
    (build_universe names).length = RANGE ∧
      (∀ i, i < RANGE → (build_universe names).get? i = some ⟨names.getD i "", i⟩) ∧
      create_distinct_random_list rand pos len names true true =
        some ((shuffle rand (build_universe names) RANGE pos).1.take len) := by
  refine ⟨by simp [build_universe], ?_, ?_⟩
  · intro i hi
    simp [build_universe, List.get?_eq_getElem?, List.getElem?_map,
      List.getElem?_range hi]
  · rw [create_distinct_random_list, if_neg (by omega), if_neg (by simp)]

/-- Closed instance of `create_validates_against_RANGE`: even with an empty
pool and a requested count of 0, the request is accepted and the universe
still has `RANGE` entries. -/
theorem create_validates_against_RANGE_witness :
    (build_universe []).length = RANGE ∧
      (create_distinct_random_list (fun _ => 0) 0 0 [] true true).isSome = true := by
  have h := create_validates_against_RANGE (fun _ => 0) 0 0 [] (by decide)
  exact ⟨h.1, by rw [h.2.2]; rfl⟩

/-- C4 counterexample: a pool of 4 labels with requested count 5 is NOT
refused — `5 ≤ RANGE` passes the only validation the code performs, so a
5-entry list is returned (the code even reads labels past the end of the
pool; the embedding models such reads with the default label `""`). -/
theorem create_pool4_count5_accepted :
    (create_distinct_random_list (fun _ => 0) 0 5 ["a", "b", "c", "d"] true true).isSome
      = true := by decide

/-- C4 amended: the hard refusal happens exactly when the requested count
exceeds the constant `RANGE = 6`, not the pool length: every such request
returns `none` with no list at all. -/
theorem create_rejects_count_above_RANGE (rand : Nat → Nat) (pos len : Nat)
    (names : List String) (aN aR : Bool) (h : RANGE < len) :
    create_distinct_random_list rand pos len names aN aR = none := by
  rw [create_distinct_random_list, if_pos h]

/-- Closed instance of `create_rejects_count_above_RANGE`: a pool of length 4
with count 7 is refused. -/
theorem create_rejects_count_above_RANGE_witness :
    create_distinct_random_list (fun _ => 0) 0 7 ["a", "b", "c", "d"] true true = none :=
  create_rejects_count_above_RANGE (fun _ => 0) 0 7 ["a", "b", "c", "d"] true true
    (by decide)

/-- What a successful `create_distinct_random_list` returns: the first `count`
entries of the shuffled universe, hence `count` entries with pairwise distinct
origin indices below `RANGE`, each carrying the label read from its origin
position of the pool. -/
theorem create_spec (rand : Nat → Nat) (pos count : Nat) (names : List String)
    (hc : count ≤ RANGE) :
    ∃ l, create_distinct_random_list rand pos count names true true = some l ∧
      l.length = count ∧ (l.map Manage.id).Nodup ∧
      ∀ e ∈ l, e.id < RANGE ∧ e.pseudo = names.getD e.id "" := by
  have hperm : ((shuffle rand (build_universe names) RANGE pos).1).Perm
      (build_universe names) := shuffleAux_perm rand (RANGE - 1) _ pos
  have hulen : (build_universe names).length = RANGE := by simp [build_universe]
  refine ⟨(shuffle rand (build_universe names) RANGE pos).1.take count, ?_, ?_, ?_, ?_⟩
  · rw [create_distinct_random_list, if_neg (by omega), if_neg (by simp)]
  · rw [List.length_take, hperm.length_eq, hulen]
    omega
  · have huniv : (build_universe names).map Manage.id = List.range RANGE := by
      rw [build_universe, List.map_map]
      exact List.map_id _
    have hmap : ((shuffle rand (build_universe names) RANGE pos).1.map Manage.id).Perm
        (List.range RANGE) := huniv ▸ hperm.map Manage.id
    have hnd : ((shuffle rand (build_universe names) RANGE pos).1.map Manage.id).Nodup :=
      hmap.symm.nodup (List.nodup_range RANGE)
    rw [List.map_take]
    exact hnd.sublist (List.take_sublist count _)
  · intro e he
    have he2 : e ∈ build_universe names :=
      hperm.mem_iff.mp (List.mem_of_mem_take he)
    rw [build_universe, List.mem_map] at he2
    obtain ⟨i, hi, rfl⟩ := he2
    rw [List.mem_range] at hi
    exact ⟨hi, rfl⟩

/-- C1 counterexample: a pool of 7 labels with requested count 7 satisfies
`count ≤ pool.length`, yet the code refuses it (`7 > RANGE`) and returns no
list at all instead of 7 entries. -/
theorem create_pool7_count7_refused :
    create_distinct_random_list (fun _ => 0) 0 7 ["a", "b", "c", "d", "e", "f", "g"]
      true true = none := by decide

/-- C1 amended: for every pool holding at least `RANGE = 6` labels and every
count with `count ≤ RANGE`, sampling returns exactly `count` entries whose
origin indices are pairwise distinct and lie in `[0, pool.length)`, and each
entry's label is the pool entry at its origin index. -/
theorem create_distinct_sample (rand : Nat → Nat) (pos count : Nat)
    (names : List String) (hn : RANGE ≤ names.length) (hc : count ≤ RANGE) :
    ∃ l, create_distinct_random_list rand pos count names true true = some l ∧
      l.length = count ∧ (l.map Manage.id).Nodup ∧
      ∀ e ∈ l, e.id < names.length ∧ names.get? e.id = some e.pseudo := by
  obtain ⟨l, h1, h2, h3, h4⟩ := create_spec rand pos count names hc
  refine ⟨l, h1, h2, h3, fun e he => ?_⟩
  have hid : e.id < names.length := lt_of_lt_of_le (h4 e he).1 hn
  refine ⟨hid, ?_⟩
  rw [(h4 e he).2, List.getD_eq_getElem names "" hid, List.get?_eq_getElem?,
    List.getElem?_eq_getElem hid]

/-- Closed instance of `create_distinct_sample` on the six-name pool of the
demo harness with count 6. -/
theorem create_distinct_sample_witness :
    ∃ l, create_distinct_random_list (fun _ => 0) 0 6
        ["dlesieur", "anvilla", "jpantoja", "marimuno", "rocgarci", "vjan-nie"]
        true true = some l ∧
      l.length = 6 ∧ (l.map Manage.id).Nodup ∧
      ∀ e ∈ l, e.id < (["dlesieur", "anvilla", "jpantoja", "marimuno", "rocgarci",
        "vjan-nie"] : List String).length ∧
        (["dlesieur", "anvilla", "jpantoja", "marimuno", "rocgarci",
          "vjan-nie"] : List String).get? e.id = some e.pseudo :=
  create_distinct_sample (fun _ => 0) 0 6
    ["dlesieur", "anvilla", "jpantoja", "marimuno", "rocgarci", "vjan-nie"]
    (by decide) (by decide)

/-- C8 counterexample: for the single-label pool `["solo"]` and count 1, the
returned entry is not the pool's entry: the universe always has `RANGE = 6`
entries (reading labels past the pool's end, modelled by `""`), the shuffle
moves them, and with the all-zero draw stream the first entry of the result
has origin index 1, not 0. -/
theorem create_pool1_count1_changed :
    create_distinct_random_list (fun _ => 0) 0 1 ["solo"] true true ≠
      some [⟨"solo", 0⟩] := by decide

/-- C8 amended: for a pool holding at least `RANGE = 6` labels, sampling with
count 1 succeeds with a single-entry list whose entry carries the label of its
own origin position — but that origin position is whatever the shuffle left in
front, not necessarily position 0. -/
theorem create_count1_single (rand : Nat → Nat) (pos : Nat) (names : List String)
    (hn : RANGE ≤ names.length) :
    ∃ e : Manage, create_distinct_random_list rand pos 1 names true true = some [e] ∧
      e.id < names.length ∧ names.get? e.id = some e.pseudo := by
  obtain ⟨l, h1, h2, _, h4⟩ := create_spec rand pos 1 names (by decide)
  obtain ⟨e, rfl⟩ := List.length_eq_one.mp h2
  have hm := h4 e (List.mem_singleton_self e)
  have hid : e.id < names.length := lt_of_lt_of_le hm.1 hn
  refine ⟨e, h1, hid, ?_⟩
  rw [hm.2, List.getD_eq_getElem names "" hid, List.get?_eq_getElem?,
    List.getElem?_eq_getElem hid]

/-- Closed instance of `create_count1_single` on a six-name pool. -/
theorem create_count1_single_witness :
    ∃ e : SortC.Manage, create_distinct_random_list (fun _ => 0) 0 1
        ["n0", "n1", "n2", "n3", "n4", "n5"] true true = some [e] ∧
      e.id < (["n0", "n1", "n2", "n3", "n4", "n5"] : List String).length ∧
      (["n0", "n1", "n2", "n3", "n4", "n5"] : List String).get? e.id = some e.pseudo :=
  create_count1_single (fun _ => 0) 0 ["n0", "n1", "n2", "n3", "n4", "n5"] (by decide)

/-- Addresses that all remaining writes of the copy loop stay clear of are
left untouched: every write of the loop from index `i` on targets either
`baseA + j` with `i ≤ j < half` or `baseB + (j - half)` with `i ≤ j`. -/
theorem splitCopyLoop_untouched (lst half baseA baseB : Nat)
    (_hAB : baseA + half ≤ baseB) :
    ∀ (n i : Nat) (m : Mem) (x : Nat),
      (x < baseA + min i half ∧ x < baseB) ∨
        (baseA + half ≤ x ∧ x < baseB + (i - half)) →
      (splitCopyLoop lst half baseA baseB n i m).heap x = m.heap x := by
  intro n
  induction n with
  | zero => intro i m x _; rfl
  | succ n ih =>
    intro i m x hx
    rw [splitCopyLoop]
    by_cases hi : i < half
    · rw [if_pos hi, ih (i + 1)]
      · have hne : x ≠ baseA + i := by
          rcases hx with ⟨h1, _⟩ | ⟨h1, _⟩ <;> omega
        simp [writeAt, hne]
      · rcases hx with ⟨h1, h2⟩ | ⟨h1, h2⟩
        · exact Or.inl ⟨by omega, h2⟩
        · exact Or.inr ⟨h1, by omega⟩
    · rw [if_neg hi, ih (i + 1)]
      · have hne : x ≠ baseB + (i - half) := by
          rcases hx with ⟨h1, h2⟩ | ⟨h1, h2⟩ <;> omega
        simp [writeAt, hne]
      · rcases hx with ⟨h1, h2⟩ | ⟨h1, h2⟩
        · exact Or.inl ⟨by omega, h2⟩
        · exact Or.inr ⟨h1, by omega⟩

/-- Group-A contents after the copy loop: cell `baseA + t` holds the source
cell `lst + t`, provided the source region lies strictly below the fresh
regions. -/
theorem splitCopyLoop_groupA (lst half baseA baseB : Nat)
    (hAB : baseA + half ≤ baseB) :
    ∀ (n i : Nat) (m : Mem) (t : Nat), i ≤ t → t < half → t < i + n →
      lst + i + n ≤ baseA →
      (splitCopyLoop lst half baseA baseB n i m).heap (baseA + t) = m.heap (lst + t) := by
  intro n
  induction n with
  | zero => intro i m t _ _ h _; omega
  | succ n ih =>
    intro i m t hit hth htn hsrc
    have hi : i < half := by omega
    rw [splitCopyLoop, if_pos hi]
    by_cases hti : t = i
    · subst hti
      rw [splitCopyLoop_untouched lst half baseA baseB hAB n (t + 1) _ (baseA + t)
        (Or.inl ⟨by omega, by omega⟩)]
      simp [writeAt]
    · rw [ih (i + 1) _ t (by omega) hth (by omega) (by omega)]
      have hne : lst + t ≠ baseA + i := by omega
      simp [writeAt, hne]

/-- Group-B contents after the copy loop: cell `baseB + (t - half)` holds the
source cell `lst + t`, for `half ≤ t`. -/
theorem splitCopyLoop_groupB (lst half baseA baseB : Nat)
    (hAB : baseA + half ≤ baseB) :
    ∀ (n i : Nat) (m : Mem) (t : Nat), half ≤ t → i ≤ t → t < i + n →
      lst + i + n ≤ baseA →
      (splitCopyLoop lst half baseA baseB n i m).heap (baseB + (t - half)) =
        m.heap (lst + t) := by
  intro n
  induction n with
  | zero => intro i m t _ _ h _; omega
  | succ n ih =>
    intro i m t hht hit htn hsrc
    rw [splitCopyLoop]
    by_cases hi : i < half
    · rw [if_pos hi, ih (i + 1) _ t hht (by omega) (by omega) (by omega)]
      have hne : lst + t ≠ baseA + i := by omega
      simp [writeAt, hne]
    · rw [if_neg hi]
      by_cases hti : t = i
      · subst hti
        rw [splitCopyLoop_untouched lst half baseA baseB hAB n (t + 1) _
          (baseB + (t - half)) (Or.inr ⟨by omega, by omega⟩)]
        simp [writeAt]
      · rw [ih (i + 1) _ t hht (by omega) (by omega) (by omega)]
        have hne : lst + t ≠ baseB + (i - half) := by omega
        simp [writeAt, hne]

/-- C7: splitting a source region of even length `2 * k` that lies inside the
previously allocated memory (below `nextFree`) (1) leaves every previously
allocated cell — in particular the whole input sequence — unchanged, (2)
hands out two fresh group regions disjoint from the old memory and from each
other, (3) fills group A with copies of source cells `0 .. k-1` and group B
with copies of source cells `k .. 2k-1`, and (4)-(6) precisely because the
three regions are disjoint, overwriting any cell of one group afterwards
changes neither the other group nor the old memory, and overwriting old
memory changes neither group. -/
theorem split_mem_no_sharing (m : Mem) (lst len k : Nat)
    (hsrc : lst + len ≤ m.nextFree) (hk : len = 2 * k) :
    (∀ x, x < m.nextFree → (split_into_groups_mem m lst len).1.heap x = m.heap x) ∧
      ((split_into_groups_mem m lst len).2.1 = m.nextFree ∧
        (split_into_groups_mem m lst len).2.2 = m.nextFree + k) ∧
      (∀ i, i < k →
        (split_into_groups_mem m lst len).1.heap ((split_into_groups_mem m lst len).2.1 + i)
          = m.heap (lst + i)) ∧
      (∀ i, i < k →
        (split_into_groups_mem m lst len).1.heap ((split_into_groups_mem m lst len).2.2 + i)
          = m.heap (lst + k + i)) ∧
      (∀ a v x, (split_into_groups_mem m lst len).2.1 ≤ a →
        a < (split_into_groups_mem m lst len).2.1 + k →
        (x < m.nextFree ∨ ((split_into_groups_mem m lst len).2.2 ≤ x ∧
          x < (split_into_groups_mem m lst len).2.2 + k)) →
        (writeAt (split_into_groups_mem m lst len).1 a v).heap x =
          (split_into_groups_mem m lst len).1.heap x) ∧
      (∀ a v x, (split_into_groups_mem m lst len).2.2 ≤ a →
        a < (split_into_groups_mem m lst len).2.2 + k →
        (x < m.nextFree ∨ ((split_into_groups_mem m lst len).2.1 ≤ x ∧
          x < (split_into_groups_mem m lst len).2.1 + k)) →
        (writeAt (split_into_groups_mem m lst len).1 a v).heap x =
          (split_into_groups_mem m lst len).1.heap x) ∧
      (∀ a v x, a < m.nextFree → m.nextFree ≤ x →
        (writeAt (split_into_groups_mem m lst len).1 a v).heap x =
          (split_into_groups_mem m lst len).1.heap x) := by
  have hhalf : len / 2 = k := by omega
  have hAB : m.nextFree + len / 2 ≤ m.nextFree + len / 2 := le_refl _
  refine ⟨?_, ⟨rfl, by rw [split_into_groups_mem, hhalf]⟩, ?_, ?_, ?_, ?_, ?_⟩
  · intro x hx
    rw [split_into_groups_mem]
    exact splitCopyLoop_untouched lst (len / 2) m.nextFree (m.nextFree + len / 2)
      hAB len 0 _ x (Or.inl ⟨by omega, by omega⟩)
  · intro i hik
    rw [split_into_groups_mem]
    have h := splitCopyLoop_groupA lst (len / 2) m.nextFree (m.nextFree + len / 2)
      hAB len 0 { m with nextFree := m.nextFree + len / 2 + len / 2 } i
      (by omega) (by omega) (by omega) (by omega)
    exact h
  · intro i hik
    have h := splitCopyLoop_groupB lst (len / 2) m.nextFree (m.nextFree + len / 2)
      hAB len 0 { m with nextFree := m.nextFree + len / 2 + len / 2 } (k + i)
      (by omega) (by omega) (by omega) (by omega)
    rw [show k + i - len / 2 = i from by omega] at h
    rw [show lst + (k + i) = lst + k + i from by omega] at h
    exact h
  · intro a v x ha1 ha2 hx
    have hne : x ≠ a := by
      rcases hx with h | h
      · have : (split_into_groups_mem m lst len).2.1 = m.nextFree := rfl
        omega
      · have h1 : (split_into_groups_mem m lst len).2.1 = m.nextFree := rfl
        have h2 : (split_into_groups_mem m lst len).2.2 = m.nextFree + len / 2 := rfl
        omega
    simp [writeAt, hne]
  · intro a v x ha1 ha2 hx
    have hne : x ≠ a := by
      rcases hx with h | h
      · have : (split_into_groups_mem m lst len).2.2 = m.nextFree + len / 2 := rfl
        omega
      · have h1 : (split_into_groups_mem m lst len).2.1 = m.nextFree := rfl
        have h2 : (split_into_groups_mem m lst len).2.2 = m.nextFree + len / 2 := rfl
        omega
    simp [writeAt, hne]
  · intro a v x ha hx
    have hne : x ≠ a := by omega
    simp [writeAt, hne]

/-- Closed instance of `split_mem_no_sharing`: a four-cell source at addresses
`0..3`; after the split the old cell `1` is unchanged and the first cell of
group A (fresh address `4`) holds a copy of source cell `0`. -/
theorem split_mem_no_sharing_witness :
    (split_into_groups_mem ⟨fun a => ⟨"c", a⟩, 4⟩ 0 4).1.heap 1 = ⟨"c", 1⟩ ∧
      (split_into_groups_mem ⟨fun a => ⟨"c", a⟩, 4⟩ 0 4).1.heap 4 = ⟨"c", 0⟩ := by
  have h := split_mem_no_sharing ⟨fun a => ⟨"c", a⟩, 4⟩ 0 4 2 (by decide) (by decide)
  exact ⟨h.1 1 (by decide), h.2.2.1 0 (by decide)⟩

/-- A valid head draw is at most the index it is used at. -/
theorem DrawsOk_head {d : Nat} {ds : List Nat} (h : DrawsOk (d :: ds)) :
    d ≤ ds.length + 1 := by
  have := h 0 (by simp)
  simpa using this

/-- The tail of a valid draw sequence is valid. -/
theorem DrawsOk_tail {d : Nat} {ds : List Nat} (h : DrawsOk (d :: ds)) :
    DrawsOk ds := by
  intro k hk
  have := h (k + 1) (by simp; omega)
  simpa [Nat.succ_sub_succ] using this

/-- Forming a valid draw sequence by consing a bounded draw. -/
theorem DrawsOk_cons {d : Nat} {ds : List Nat} (hd : d ≤ ds.length + 1)
    (h : DrawsOk ds) : DrawsOk (d :: ds) := by
  intro k hk
  cases k with
  | zero => simpa using hd
  | succ k =>
    have hk' : k < ds.length := by simpa using hk
    have := h k hk'
    simpa [Nat.succ_sub_succ] using this

/-- The shuffle loop starting at index `i` consumes exactly `i` draws. -/
theorem drawsOf_length (rand : Nat → Nat) : ∀ (pos i : Nat),
    (drawsOf rand pos i).length = i := by
  intro pos i
  induction i generalizing pos with
  | zero => rfl
  | succ i ih => simp [drawsOf, ih]

/-- The draws the shuffle loop makes are always valid: each is reduced modulo
`index + 1`. -/
theorem DrawsOk_drawsOf (rand : Nat → Nat) : ∀ (pos i : Nat),
    DrawsOk (drawsOf rand pos i) := by
  intro pos i
  induction i generalizing pos with
  | zero => intro k hk; simp [drawsOf] at hk
  | succ i ih =>
    rw [drawsOf]
    refine DrawsOk_cons ?_ (ih (pos + 1))
    rw [drawsOf_length]
    have := Nat.mod_lt (rand pos) (y := i + 2) (by omega)
    omega

/-- The draw-sequence form agrees with the shuffle loop: starting at index `i`
with cursor `pos`, the loop applies exactly the draws `drawsOf rand pos i` and
moves the cursor by `i`. -/
theorem shuffleAux_eq_fyAux {α : Type _} (rand : Nat → Nat) : ∀ (i : Nat)
    (l : List α) (pos : Nat),
    shuffleAux rand l pos i = (fyAux l (drawsOf rand pos i), pos + i) := by
  intro i
  induction i with
  | zero => intro l pos; rfl
  | succ i ih =>
    intro l pos
    rw [shuffleAux, ih, drawsOf, fyAux, drawsOf_length]
    exact congrArg _ (by omega)

/-- `fyAux` only ever swaps, so it permutes the list. -/
theorem fyAux_perm {α : Type _} : ∀ (ds : List Nat) (l : List α),
    (fyAux l ds).Perm l := by
  intro ds
  induction ds with
  | nil => intro l; exact List.Perm.refl l
  | cons d ds ih =>
    intro l
    exact (ih _).trans (ft_swap_perm l (ds.length + 1) d)

/-- Swapping inside the left part of an appended list only touches the left
part. -/
theorem ft_swap_append {α : Type _} (l₁ l₂ : List α) (i j : Nat)
    (hi : i < l₁.length) (hj : j < l₁.length) :
    ft_swap (l₁ ++ l₂) i j = ft_swap l₁ i j ++ l₂ := by
  have hi2 : i < (l₁ ++ l₂).length := by rw [List.length_append]; omega
  have hj2 : j < (l₁ ++ l₂).length := by rw [List.length_append]; omega
  rw [ft_swap, ft_swap, dif_pos ⟨hi2, hj2⟩, dif_pos ⟨hi, hj⟩]
  simp only [List.get_eq_getElem]
  rw [List.getElem_append_left hi, List.getElem_append_left hj,
    List.set_append_left _ _ hi,
    List.set_append_left _ _ (by simpa using hj)]

/-- A valid draw sequence shorter than the left part of an appended list
leaves the right part alone: all its swaps happen at indices at most
`ds.length < l₁.length`. -/
theorem fyAux_append {α : Type _} : ∀ (ds : List Nat) (l₁ l₂ : List α),
    DrawsOk ds → ds.length < l₁.length →
    fyAux (l₁ ++ l₂) ds = fyAux l₁ ds ++ l₂ := by
  intro ds
  induction ds with
  | nil => intro l₁ l₂ _ _; rfl
  | cons d ds ih =>
    intro l₁ l₂ hok hlen
    have hd : d ≤ ds.length + 1 := DrawsOk_head hok
    have hlen' : ds.length + 1 < l₁.length := by simpa using hlen
    rw [fyAux, fyAux, ft_swap_append l₁ l₂ _ _ (by omega) (by omega),
      ih _ _ (DrawsOk_tail hok)
        (by rw [(ft_swap_perm l₁ (ds.length + 1) d).length_eq]; omega)]

/-- The final swap of the Fisher-Yates loop in closed form: swapping the last
position `n` with a position `d ≤ n` moves `l[d]` to the end and `l[n]` into
position `d` of the prefix. -/
theorem ft_swap_last {α : Type _} (l : List α) (n d : Nat) (hl : l.length = n + 1)
    (hd : d ≤ n) :
    ft_swap l n d =
      (l.take n).set d (l.get ⟨n, by omega⟩) ++ [l.get ⟨d, by omega⟩] := by
  rw [ft_swap, dif_pos ⟨by omega, by omega⟩]
  apply List.ext_getElem
  · simp
    omega
  · intro k h1 h2
    have hk : k < n + 1 := by
      rw [List.length_set, List.length_set, hl] at h1
      exact h1
    simp only [List.get_eq_getElem]
    rw [List.getElem_set, List.getElem_set]
    by_cases hkn : k < n
    · rw [List.getElem_append_left (by simp; omega)]
      rw [List.getElem_set]
      by_cases hdk : d = k
      · rw [if_pos hdk, if_pos hdk]
      · rw [if_neg hdk, if_neg hdk, if_neg (by omega : ¬ n = k), List.getElem_take]
    · have hkn' : k = n := by omega
      subst hkn'
      rw [List.getElem_append_right (by simp), List.getElem_singleton]
      by_cases hdk : d = k
      · subst hdk
        rw [if_pos rfl]
      · rw [if_neg hdk, if_pos rfl]

/-- Core of the Fisher-Yates uniformity argument: over a duplicate-free list,
every permutation of the list is produced by exactly one valid draw sequence.
The induction peels off the last index: the final element of the target
determines the first draw (because the list has no duplicates), and the
remaining prefix is an instance of the same problem one index shorter. -/
theorem fy_exists_unique {α : Type _} : ∀ (N : Nat) (l₀ : List α),
    l₀.length = N → l₀.Nodup → ∀ l : List α, l.Perm l₀ →
    ∃! ds : List Nat, (ds.length = l₀.length - 1 ∧ DrawsOk ds) ∧ fyAux l₀ ds = l := by
  intro N
  induction N with
  | zero =>
    intro l₀ hlen _ l hp
    have h0 : l₀ = [] := List.length_eq_zero.mp hlen
    subst h0
    have hl : l = [] := hp.eq_nil
    subst hl
    refine ⟨[], ⟨⟨rfl, fun k hk => by simp at hk⟩, rfl⟩, ?_⟩
    rintro ds ⟨⟨hdslen, _⟩, _⟩
    exact List.length_eq_zero.mp (by simpa using hdslen)
  | succ n ih =>
    intro l₀ hlen hnd l hp
    cases n with
    | zero =>
      obtain ⟨a, ha⟩ := List.length_eq_one.mp hlen
      subst ha
      have hl : l = [a] := List.perm_singleton.mp hp
      subst hl
      refine ⟨[], ⟨⟨rfl, fun k hk => by simp at hk⟩, rfl⟩, ?_⟩
      rintro ds ⟨⟨hdslen, _⟩, _⟩
      exact List.length_eq_zero.mp (by simpa using hdslen)
    | succ m =>
      have hllen : l.length = m + 2 := by rw [hp.length_eq, hlen]
      have hlast : m + 1 < l.length := by omega
      have hm1 : m + 1 < l₀.length := by omega
      have hxmem : l.get ⟨m + 1, hlast⟩ ∈ l₀ :=
        hp.mem_iff.mp (List.get_mem l (m + 1) hlast)
      obtain ⟨⟨d, hdlt⟩, hld⟩ := List.mem_iff_get.mp hxmem
      have hd2 : d ≤ m + 1 := by rw [hlen] at hdlt; omega
      obtain ⟨Q, hswap, hQlen⟩ :
          ∃ Q, ft_swap l₀ (m + 1) d = Q ++ [l.get ⟨m + 1, hlast⟩] ∧
            Q.length = m + 1 := by
        refine ⟨(l₀.take (m + 1)).set d (l₀.get ⟨m + 1, hm1⟩), ?_, ?_⟩
        · rw [ft_swap_last l₀ (m + 1) d hlen hd2, hld]
        · rw [List.length_set, List.length_take, hlen]
          omega
      have hQperm : (Q ++ [l.get ⟨m + 1, hlast⟩]).Perm l₀ := by
        rw [← hswap]
        exact ft_swap_perm l₀ (m + 1) d
      have hQnd : Q.Nodup := (hQperm.symm.nodup hnd).of_append_left
      have hlQ : l = l.take (m + 1) ++ [l.get ⟨m + 1, hlast⟩] := by
        simp only [List.get_eq_getElem]
        conv_lhs => rw [← List.take_append_drop (m + 1) l]
        congr 1
        rw [← List.getElem_cons_drop l (m + 1) hlast,
          List.drop_eq_nil_of_le (by omega)]
      have hpre : (l.take (m + 1)).Perm Q := by
        have h1 : (l.take (m + 1) ++ [l.get ⟨m + 1, hlast⟩]).Perm
            (Q ++ [l.get ⟨m + 1, hlast⟩]) := by
          rw [← hlQ]
          exact hp.trans hQperm.symm
        exact (List.perm_append_right_iff _).mp h1
      obtain ⟨ds', ⟨⟨hdslen', hok'⟩, heq'⟩, huniq'⟩ := ih Q hQlen hQnd (l.take (m + 1)) hpre
      have hdslen'' : ds'.length = m := by
        rw [hdslen', hQlen]
        omega
      refine ⟨d :: ds', ⟨⟨?_, ?_⟩, ?_⟩, ?_⟩
      · rw [List.length_cons, hdslen'', hlen]
        omega
      · exact DrawsOk_cons (by rw [hdslen'']; omega) hok'
      · rw [fyAux, show ds'.length + 1 = m + 1 from by omega, hswap,
          fyAux_append ds' Q _ hok' (by rw [hQlen]; omega), heq', ← hlQ]
      · rintro ds₂ ⟨⟨hlen₂, hok₂⟩, heq₂⟩
        have hlen₂' : ds₂.length = m + 1 := by
          rw [hlen₂, hlen]
          omega
        cases ds₂ with
        | nil => simp at hlen₂'
        | cons d₂ ds₂' =>
          have hlen₂'' : ds₂'.length = m := by simpa using hlen₂'
          have hd₂ : d₂ ≤ m + 1 := by
            have := DrawsOk_head hok₂
            omega
          have hd₂lt : d₂ < l₀.length := by omega
          have hQ₂l : ((l₀.take (m + 1)).set d₂ (l₀.get ⟨m + 1, hm1⟩)).length = m + 1 := by
            rw [List.length_set, List.length_take, hlen]
            omega
          rw [fyAux, show ds₂'.length + 1 = m + 1 from by omega,
            ft_swap_last l₀ (m + 1) d₂ hlen hd₂,
            fyAux_append ds₂' ((l₀.take (m + 1)).set d₂ (l₀.get ⟨m + 1, hm1⟩))
              [l₀.get ⟨d₂, hd₂lt⟩] (DrawsOk_tail hok₂) (by rw [hQ₂l]; omega),
            hlQ] at heq₂
          have hfql : (fyAux ((l₀.take (m + 1)).set d₂ (l₀.get ⟨m + 1, hm1⟩))
              ds₂').length = m + 1 := by
            rw [(fyAux_perm ds₂' _).length_eq, hQ₂l]
          have hltake : (l.take (m + 1)).length = m + 1 := by
            rw [List.length_take]
            omega
          obtain ⟨hpref, hsing⟩ := List.append_inj heq₂ (by rw [hfql, hltake])
          have hxeq : l₀.get ⟨d₂, hd₂lt⟩ = l.get ⟨m + 1, hlast⟩ := by
            simpa using hsing
          have hdd : d₂ = d := by
            have h1 : l₀.get ⟨d₂, hd₂lt⟩ = l₀.get ⟨d, hdlt⟩ := by rw [hxeq, hld]
            simp only [List.get_eq_getElem] at h1
            exact hnd.getElem_inj_iff.mp h1
          subst hdd
          have hQQ : (l₀.take (m + 1)).set d₂ (l₀.get ⟨m + 1, hm1⟩) = Q := by
            have h2 : Q ++ [l.get ⟨m + 1, hlast⟩] =
                (l₀.take (m + 1)).set d₂ (l₀.get ⟨m + 1, hm1⟩) ++
                  [l₀.get ⟨d₂, hd₂lt⟩] := by
              rw [← hswap, ft_swap_last l₀ (m + 1) d₂ hlen hd₂]
            exact ((List.append_inj h2.symm (by rw [hQ₂l, hQlen])).1)
          have hds : ds₂' = ds' := by
            apply huniq'
            refine ⟨⟨?_, DrawsOk_tail hok₂⟩, ?_⟩
            · rw [hlen₂'', hQlen]
              omega
            · rw [← hQQ]
              exact hpref
          rw [hds]

/-- C5: on a duplicate-free sequence, (1) the shuffle is exactly the
draw-sequence form applied to the `L - 1` draws it takes from the stream,
(2) those draws are always valid (each is reduced modulo `index + 1`, so it
lies in `[0, index]`), and (3) modelling each draw for index `i` as an
arbitrary value in `[0, i]`, every one of the `L!` permutations of the input
is produced by exactly one valid draw sequence — so under draws uniform on
`[0, i]` all permutations are equally likely and the shuffle is unbiased. -/
theorem shuffle_uniform {α : Type _} (l₀ : List α) (hnd : l₀.Nodup) :
    (∀ (rand : Nat → Nat) (pos : Nat),
      shuffle rand l₀ l₀.length pos =
        (fyAux l₀ (drawsOf rand pos (l₀.length - 1)), pos + (l₀.length - 1))) ∧
      (∀ (rand : Nat → Nat) (pos : Nat),
        (drawsOf rand pos (l₀.length - 1)).length = l₀.length - 1 ∧
          DrawsOk (drawsOf rand pos (l₀.length - 1))) ∧
      (∀ l : List α, l.Perm l₀ →
        ∃! ds : List Nat, (ds.length = l₀.length - 1 ∧ DrawsOk ds) ∧ fyAux l₀ ds = l) := by
  refine ⟨?_, ?_, ?_⟩
  · intro rand pos
    exact shuffleAux_eq_fyAux rand (l₀.length - 1) l₀ pos
  · intro rand pos
    exact ⟨drawsOf_length rand pos _, DrawsOk_drawsOf rand pos _⟩
  · intro l hl
    exact fy_exists_unique l₀.length l₀ rfl hnd l hl

/-- Closed instance of `shuffle_uniform` on the two-element list `[0, 1]` and
the reversed target `[1, 0]`. -/
theorem shuffle_uniform_witness :
    shuffle (fun _ => 0) [(0 : Nat), 1] 2 5 =
        (fyAux [(0 : Nat), 1] (drawsOf (fun _ => 0) 5 1), 5 + 1) ∧
      ∃! ds : List Nat, (ds.length = 1 ∧ DrawsOk ds) ∧ fyAux [(0 : Nat), 1] ds = [1, 0] := by
  have h := shuffle_uniform [(0 : Nat), 1] (by decide)
  exact ⟨h.1 (fun _ => 0) 5, h.2.2 [1, 0] (by decide)⟩

end SortC
